import Mathlib

/-!
Verification of the documentation-server repository against its specification.

Shallow embedding conventions:
* Rust strings are modelled as `List Char` (sequences of Unicode scalar values);
  byte views (`str::as_bytes`) are modelled as `List Nat` with every element < 256,
  obtained through an explicit UTF-8 encoder.
* Machine integers (`u32`, `u64`, `usize`) are modelled as `Nat` with explicit
  `% 2 ^ w` where wrap-around can occur.
* Filesystem state is modelled as association lists from file names to byte
  contents; fallible IO is modelled with explicit outcome parameters.
-/

namespace RustDocs

/-! ## Chunker (src/document_chunker.rs)

The source type `DocumentChunker` carries three byte-size tunables.  Chunk
identifiers (hex SHA-256 of the content) are not modelled: no claim under
verification mentions them, so a chunk is represented by its content bytes. -/

/-- Tunables of `DocumentChunker` (fields `min_chunk_size`, `target_chunk_size`,
`max_chunk_size` in src/document_chunker.rs). -/
structure DocumentChunker where
  min_chunk_size : Nat
  target_chunk_size : Nat
  max_chunk_size : Nat
deriving DecidableEq

/-- Constant `POLYNOMIAL` from src/document_chunker.rs. -/
def POLYNOMIAL : Nat := 69997

/-- Constant `CHUNK_MASK` from src/document_chunker.rs. -/
def CHUNK_MASK : Nat := 0x1FFF

/-- Model of `DocumentChunker::new` with the default tunables 1000/4000/8000. -/
def DocumentChunker.new : DocumentChunker :=
  { min_chunk_size := 1000, target_chunk_size := 4000, max_chunk_size := 8000 }

/-- Model of `DocumentChunker::with_params`. -/
def DocumentChunker.with_params (min_size target_size max_size : Nat) : DocumentChunker :=
  { min_chunk_size := min_size, target_chunk_size := target_size, max_chunk_size := max_size }

/-- One rolling-hash update: `rolling_hash = ((rolling_hash << 1) | byte) % POLYNOMIAL`.
The Rust computation is in `u32`; since the state stays below `POLYNOMIAL < 2 ^ 17`
and bytes are below 256, the `u32` arithmetic never wraps, so plain `Nat`
arithmetic is exact. -/
def rollStep (h b : Nat) : Nat := ((h <<< 1) ||| b) % POLYNOMIAL

/-- Loop body of `DocumentChunker::find_chunk_boundaries`: walks the remaining
bytes, carrying the global byte index `i`, the current chunk start `start` and
the rolling hash `h`.  Each step updates the hash with the consumed byte, then

* skips while the current chunk is shorter than `min_chunk_size`,
* emits a forced boundary once the chunk reaches `max_chunk_size`,
* emits a boundary when the masked hash is zero or the chunk reaches
  `target_chunk_size`,

resetting `start` and the hash on emission, exactly as the `while` loop in the
source. -/
def boundariesLoop (C : DocumentChunker) : List Nat → Nat → Nat → Nat → List Nat
  | [], _, _, _ => []
  | b :: rest, i, start, h =>
    if i + 1 - start < C.min_chunk_size then
      boundariesLoop C rest (i + 1) start (rollStep h b)
    else if C.max_chunk_size ≤ i + 1 - start then
      (i + 1) :: boundariesLoop C rest (i + 1) (i + 1) 0
    else if rollStep h b &&& CHUNK_MASK = 0 ∨ C.target_chunk_size ≤ i + 1 - start then
      (i + 1) :: boundariesLoop C rest (i + 1) (i + 1) 0
    else
      boundariesLoop C rest (i + 1) start (rollStep h b)

/-- Model of `DocumentChunker::find_chunk_boundaries`: runs the loop from
index 0 and, when the produced list is non-empty and does not already end at
the document length, appends the document length. -/
def find_chunk_boundaries (C : DocumentChunker) (document : List Nat) : List Nat :=
  if boundariesLoop C document 0 0 0 ≠ [] ∧
      (boundariesLoop C document 0 0 0).getLast? ≠ some document.length then
    boundariesLoop C document 0 0 0 ++ [document.length]
  else
    boundariesLoop C document 0 0 0

/-- Helper of `chunk_document`: turns a boundary list into the list of chunk
contents, slicing the document between consecutive boundaries starting at
`start` (the `for boundary in boundaries` loop of the source). -/
def chunksFrom (document : List Nat) : Nat → List Nat → List (List Nat)
  | _, [] => []
  | start, b :: rest => (document.drop start).take (b - start) :: chunksFrom document b rest

/-- Model of `DocumentChunker::chunk_document` (chunk contents only; the
SHA-256 chunk ids are not modelled). -/
def chunk_document (C : DocumentChunker) (document : List Nat) : List (List Nat) :=
  if document.length ≤ C.min_chunk_size then
    [document]
  else if find_chunk_boundaries C document = [] then
    [document]
  else
    chunksFrom document 0 (find_chunk_boundaries C document)

/-- Boundary lists are chains: each element dominates the accumulator it was
emitted after. -/
def ChainedFrom : Nat → List Nat → Prop
  | _, [] => True
  | s, b :: rest => s ≤ b ∧ ChainedFrom b rest

/-- Size specification of a boundary list relative to the start of the current
chunk: every consecutive gap lies between `min_chunk_size` and
`max_chunk_size`. -/
def SizedFrom (C : DocumentChunker) : Nat → List Nat → Prop
  | _, [] => True
  | s, b :: rest =>
    C.min_chunk_size ≤ b - s ∧ b - s ≤ C.max_chunk_size ∧ SizedFrom C b rest

/-! ## Unicode strings and UTF-8

Rust `&str` values are modelled as `List Char`.  The byte view used by the
chunker and the hasher is produced by the standard UTF-8 encoding. -/

/-- Standard UTF-8 encoding of one Unicode scalar value. -/
def utf8EncodeChar (c : Char) : List Nat :=
  if c.toNat < 0x80 then
    [c.toNat]
  else if c.toNat < 0x800 then
    [0xC0 ||| (c.toNat >>> 6), 0x80 ||| (c.toNat &&& 0x3F)]
  else if c.toNat < 0x10000 then
    [0xE0 ||| (c.toNat >>> 12), 0x80 ||| ((c.toNat >>> 6) &&& 0x3F),
      0x80 ||| (c.toNat &&& 0x3F)]
  else
    [0xF0 ||| (c.toNat >>> 18), 0x80 ||| ((c.toNat >>> 12) &&& 0x3F),
      0x80 ||| ((c.toNat >>> 6) &&& 0x3F), 0x80 ||| (c.toNat &&& 0x3F)]

/-- Model of `str::as_bytes` / `str::bytes`. -/
def utf8Bytes (s : List Char) : List Nat := (s.map utf8EncodeChar).flatten

/-- Model of `str::is_char_boundary` on the byte view of a valid UTF-8 string:
the end of the string is a boundary, and an interior position is a boundary
exactly when the byte there is not a continuation byte.  Rust string slicing
`&s[a..b]` panics when either index fails this predicate. -/
def is_char_boundary (bytes : List Nat) (i : Nat) : Bool :=
  if i = bytes.length then
    true
  else
    match bytes.get? i with
    | some b => decide (b < 0x80) || decide (0xC0 ≤ b)
    | none => false

/-- Document of claim C10: 99 ASCII bytes followed by the two-byte character
`é`, as a byte list (the UTF-8 encoding of the 100-character string). -/
def panicDoc : List Nat := utf8Bytes (List.replicate 99 'a' ++ ['é'])

/-! ## Fast content hasher (src/fast_hash.rs) -/

/-- Unicode scalar values with the White_Space property, the set recognised by
the Rust `char::is_whitespace` used inside `str::trim`. -/
def whitespaceCodes : List Nat :=
  [0x09, 0x0A, 0x0B, 0x0C, 0x0D, 0x20, 0x85, 0xA0, 0x1680,
    0x2000, 0x2001, 0x2002, 0x2003, 0x2004, 0x2005, 0x2006, 0x2007,
    0x2008, 0x2009, 0x200A, 0x2028, 0x2029, 0x202F, 0x205F, 0x3000]

/-- Model of `char::is_whitespace`. -/
def isWhitespaceChar (c : Char) : Bool := whitespaceCodes.contains c.toNat

/-- Split on every occurrence of `sep`, keeping empty segments (the underlying
splitter of `str::lines`). -/
def splitOnChar (sep : Char) : List Char → List (List Char)
  | [] => [[]]
  | c :: rest =>
    match splitOnChar sep rest with
    | [] => [[]]
    | seg :: segs => if c = sep then [] :: seg :: segs else (c :: seg) :: segs

/-- Removal of one trailing carriage return, as `str::lines` does on each
produced line. -/
def stripTrailingCR (l : List Char) : List Char :=
  if l.getLast? = some '\r' then l.dropLast else l

/-- Model of `str::lines`: split on newline, drop the trailing empty segment
produced by a terminating newline, and strip one trailing carriage return from
each line. -/
def rustLines (s : List Char) : List (List Char) :=
  (if (splitOnChar '\n' s).getLast? = some [] then
      (splitOnChar '\n' s).dropLast
    else
      splitOnChar '\n' s).map stripTrailingCR

/-- Model of `str::trim_start`. -/
def trimStart (l : List Char) : List Char := l.dropWhile isWhitespaceChar

/-- Model of `str::trim_end`. -/
def trimEnd (l : List Char) : List Char := (l.reverse.dropWhile isWhitespaceChar).reverse

/-- Model of `str::trim` (whitespace removed from both ends). -/
def rustTrim (l : List Char) : List Char := trimEnd (trimStart l)

/-- Joining with a single newline, as `Vec::join("\n")`. -/
def joinLines : List (List Char) → List Char
  | [] => []
  | [l] => l
  | l :: l2 :: ls => l ++ '\n' :: joinLines (l2 :: ls)

/-- Line list produced by the `normalize_content` pipeline before the final
join: every line trimmed, empty lines dropped. -/
def normalizedLines (s : List Char) : List (List Char) :=
  ((rustLines s).map rustTrim).filter (fun l => !l.isEmpty)

/-- Model of `normalize_content` in src/fast_hash.rs: trim every line, drop
the empty ones, rejoin with single newlines. -/
def normalize_content (s : List Char) : List Char :=
  joinLines (normalizedLines s)

/-- FNV-1a 64-bit offset basis (`FastHasher::new`). -/
def FNV_OFFSET_BASIS : Nat := 0xcbf29ce484222325

/-- FNV-1a 64-bit prime (`FastHasher::write_u8`). -/
def FNV_PRIME : Nat := 0x100000001b3

/-- One `FastHasher::write_u8` step: xor the byte into the state, multiply by
the prime with `u64` wrap-around. -/
def fnvStep (state byte : Nat) : Nat := ((state ^^^ byte) * FNV_PRIME) % 2 ^ 64

/-- Model of `FastHasher::hash_string`: fold FNV-1a over the UTF-8 bytes. -/
def hash_string (s : List Char) : Nat := (utf8Bytes s).foldl fnvStep FNV_OFFSET_BASIS

/-- Model of `compute_content_hash` in src/fast_hash.rs. -/
def compute_content_hash (s : List Char) : Nat := hash_string (normalize_content s)

/-- Modelled from the spec (claim C5): `reflow` trims whitespace from both
ends of each line, drops empty lines, and rejoins with single newlines.  It is
stated separately from `normalize_content` so that the hash-stability claim
can be read against the spec wording; the two pipelines coincide. -/
def reflowSpec (s : List Char) : List Char :=
  joinLines (((rustLines s).map rustTrim).filter (fun l => !l.isEmpty))

/-! ## Global embedding cache (src/global_cache.rs)

Vectors of `f32` are modelled by their 32-bit patterns (`Nat` below `2 ^ 32`):
serialisation moves bit patterns, never arithmetic values, so this is exact.
The on-disk tier is an association list from file names to file bytes; the
in-memory tier is an association list from `u64` hashes to vectors, with
insertion at the front shadowing older entries as `HashMap::insert` does. -/

/-- Little-endian byte quadruple of one `f32` bit pattern (the fixed 4-byte
float encoding of the bincode standard configuration). -/
def encodeF32 (x : Nat) : List Nat :=
  [x % 256, x / 256 % 256, x / 65536 % 256, x / 16777216 % 256]

/-- Variable-length integer encoding of a `u64` under the bincode standard
configuration: one byte below 251, marker 251 plus 2-byte little endian below
`2 ^ 16`, marker 252 plus 4 bytes below `2 ^ 32`, marker 253 plus 8 bytes
otherwise. -/
def encodeVarint (n : Nat) : List Nat :=
  if n < 251 then
    [n]
  else if n < 65536 then
    [251, n % 256, n / 256 % 256]
  else if n < 4294967296 then
    [252, n % 256, n / 256 % 256, n / 65536 % 256, n / 16777216 % 256]
  else
    [253, n % 256, n / 256 % 256, n / 65536 % 256, n / 16777216 % 256,
      n / 4294967296 % 256, n / 1099511627776 % 256,
      n / 281474976710656 % 256, n / 72057594037927936 % 256]

/-- Decoder matching `encodeVarint`, returning the value and the remaining
bytes. -/
def decodeVarint : List Nat → Option (Nat × List Nat)
  | [] => none
  | b :: rest =>
    if b < 251 then
      some (b, rest)
    else if b = 251 then
      match rest with
      | b0 :: b1 :: r => some (b0 + 256 * b1, r)
      | _ => none
    else if b = 252 then
      match rest with
      | b0 :: b1 :: b2 :: b3 :: r =>
        some (b0 + 256 * b1 + 65536 * b2 + 16777216 * b3, r)
      | _ => none
    else if b = 253 then
      match rest with
      | b0 :: b1 :: b2 :: b3 :: b4 :: b5 :: b6 :: b7 :: r =>
        some (b0 + 256 * b1 + 65536 * b2 + 16777216 * b3 + 4294967296 * b4
          + 1099511627776 * b5 + 281474976710656 * b6
          + 72057594037927936 * b7, r)
      | _ => none
    else
      none

/-- Decoder for `len` consecutive little-endian `f32` values. -/
def decodeF32s : Nat → List Nat → Option (List Nat × List Nat)
  | 0, rest => some ([], rest)
  | k + 1, b0 :: b1 :: b2 :: b3 :: r =>
    match decodeF32s k r with
    | some (xs, r2) => some ((b0 + 256 * b1 + 65536 * b2 + 16777216 * b3) :: xs, r2)
    | none => none
  | _ + 1, _ => none

/-- Serialised form of a vector written by `store_embedding` (bincode standard
configuration for a float slice): varint length then the elements. -/
def encodeVec (v : List Nat) : List Nat :=
  encodeVarint v.length ++ (v.map encodeF32).flatten

/-- Model of `bincode::decode_from_reader` for `Vec<f32>`: reads the length
and then the elements; trailing bytes in the file are not inspected. -/
def decodeVec (bytes : List Nat) : Option (List Nat) :=
  match decodeVarint bytes with
  | some (len, rest) =>
    match decodeF32s len rest with
    | some (xs, _) => some xs
    | none => none
  | none => none

/-- Lower-case hexadecimal rendering of a `u64` zero-padded to 16 digits, as
produced by the 016x format used for cache file names. -/
def hex16 (n : Nat) : List Char :=
  (List.range 16).reverse.map (fun k => Nat.digitChar (n / 16 ^ k % 16))

/-- Cache file name for a content hash: the 16 hex digits followed by the
`.bin` extension. -/
def cacheFileName (h : Nat) : List Char := hex16 h ++ ".bin".toList

/-- Outcome of the disk half of `store_embedding`: success, cache-directory
resolution failure (`ServerError::Xdg`), file-creation failure
(`ServerError::Io`), or a failure of `bincode::encode_into_std_write` after
`File::create` already succeeded (`ServerError::Config`).  The first two
failures touch no file; the encode failure happens after the truncating
create, so the hash-named file exists and holds only the bytes flushed before
the failure (a prefix of the encoding, carried here as the `written`
parameter), destroying any previous content under that name.  In every
failure case the in-memory insertion has already happened. -/
inductive DiskOutcome
  | ok
  | dirFail
  | createFail
  | encodeFail (written : List Nat)
deriving DecidableEq

/-- Relevant `ServerError` variants for the cache write path: `Xdg`, `Io`,
and the `Config` wrapper used for encode failures. -/
inductive CacheError
  | xdg
  | ioErr
  | config
deriving DecidableEq

/-- Two-tier cache state: the in-memory `EMBEDDING_CACHE` map and the on-disk
cache directory. -/
structure CacheState where
  mem : List (Nat × List Nat)
  disk : List (List Char × List Nat)
deriving DecidableEq

/-- Model of `get_embedding`: hash the content, consult the in-memory tier,
and on a miss look for the hash-named file on disk, decode it, populate the
in-memory tier and return the vector.  Missing file, unreadable file and
decode failure all yield `none`, as in the source. -/
def get_embedding (st : CacheState) (document_content : List Char) :
    Option (List Nat) × CacheState :=
  match st.mem.lookup (compute_content_hash document_content) with
  | some embedding => (some embedding, st)
  | none =>
    match st.disk.lookup (cacheFileName (compute_content_hash document_content)) with
    | none => (none, st)
    | some bytes =>
      match decodeVec bytes with
      | some embedding =>
        (some embedding,
          { st with mem := (compute_content_hash document_content, embedding) :: st.mem })
      | none => (none, st)

/-- Model of `store_embedding`: hash the content, insert into the in-memory
map first, then attempt the disk write; the injected `DiskOutcome` selects
the failure point of the write path.  On `encodeFail` the truncating
`File::create` has already replaced the hash-named file, so the disk tier
maps that name to the partially written bytes. -/
def store_embedding (st : CacheState) (document_content : List Char)
    (embedding : List Nat) (outcome : DiskOutcome) :
    CacheState × Except CacheError Unit :=
  match outcome with
  | .dirFail =>
    ({ st with mem := (compute_content_hash document_content, embedding) :: st.mem },
      .error .xdg)
  | .createFail =>
    ({ st with mem := (compute_content_hash document_content, embedding) :: st.mem },
      .error .ioErr)
  | .encodeFail written =>
    ({ mem := (compute_content_hash document_content, embedding) :: st.mem,
       disk := (cacheFileName (compute_content_hash document_content),
         written) :: st.disk },
      .error .config)
  | .ok =>
    ({ mem := (compute_content_hash document_content, embedding) :: st.mem,
       disk := (cacheFileName (compute_content_hash document_content),
         encodeVec embedding) :: st.disk },
      .ok ())

/-! ## Embedding pipeline (src/embeddings.rs)

The tokenizer (`tiktoken` cl100k) and the OpenAI endpoint are external
collaborators: they enter the model as the parameters `tok` (token count of a
content string) and `api` (the data vectors of one embedding response, or a
transport error).  `buffer_unordered` collects per-document results in
completion order, so the result list is quantified as an arbitrary
permutation of the per-document results. -/

/-- Model of `EmbeddingProvider` in src/embeddings.rs. -/
inductive EmbeddingProvider
  | OpenAI
  | ONNX
deriving DecidableEq

/-- Model of the `Embedding` struct (vector as 32-bit patterns). -/
structure Embedding where
  values : List Nat
  provider : EmbeddingProvider
  model : List Char
  dimensions : Nat
deriving DecidableEq

/-- Model of `Embedding::new`: dimensions are derived from the vector. -/
def Embedding.new (vector : List Nat) (provider : EmbeddingProvider)
    (model : List Char) : Embedding :=
  { values := vector, provider := provider, model := model,
    dimensions := vector.length }

/-- Model of the `Document` struct of src/doc_loader.rs. -/
structure Document where
  path : List Char
  content : List Char
deriving DecidableEq

/-- Constant `TOKEN_LIMIT` in `generate_embeddings`. -/
def TOKEN_LIMIT : Nat := 8000

/-- Errors of the embedding pipeline: a propagated OpenAI transport error, or
the response-length contract violation raised when `response.data.len() != 1`. -/
inductive EmbedError
  | openAIErr
  | providerContract
deriving DecidableEq

/-- Per-document stage of `generate_embeddings`: count tokens, skip the
document (zero contribution) when the count exceeds `TOKEN_LIMIT`, otherwise
issue the embedding request, check the response holds exactly one vector, and
emit path, embedding and token count. -/
def perDocResult (tok : List Char → Nat)
    (api : Document → Except EmbedError (List (List Nat)))
    (model : List Char) (doc : Document) :
    Except EmbedError (Option (List Char × Embedding × Nat)) :=
  if TOKEN_LIMIT < tok doc.content then
    .ok none
  else
    match api doc with
    | .error e => .error e
    | .ok [vector] =>
      .ok (some (doc.path, Embedding.new vector .OpenAI model, tok doc.content))
    | .ok _ => .error .providerContract

/-- Final collection loop of `generate_embeddings`: keep successful
embeddings in order, sum their token counts, ignore skipped documents, and
return the first error encountered. -/
def collectResults :
    List (Except EmbedError (Option (List Char × Embedding × Nat))) →
      Except EmbedError (List (List Char × Embedding) × Nat)
  | [] => .ok ([], 0)
  | r :: rest =>
    match r with
    | .ok (some (path, embedding, tokens)) =>
      match collectResults rest with
      | .ok (pairs, total) => .ok ((path, embedding) :: pairs, tokens + total)
      | .error e => .error e
    | .ok none => collectResults rest
    | .error e => .error e

/-- Classification of one per-document result: did it emit a pair. -/
def isEmitted (r : Except EmbedError (Option (List Char × Embedding × Nat))) : Bool :=
  match r with
  | .ok (some _) => true
  | _ => false

/-- Token contribution of one per-document result. -/
def tokenOf (r : Except EmbedError (Option (List Char × Embedding × Nat))) : Nat :=
  match r with
  | .ok (some (_, _, t)) => t
  | _ => 0

/-! ## HTML document extraction (src/doc_loader.rs)

The filesystem walk is modelled by a list of file entries carrying the path
components relative to the docs root, the byte size reported by metadata, and
the text that the `section#main-content.content` selector extracts (`none`
when the file is unreadable or the selector finds nothing).  `HashMap`
iteration order over basename groups is abstracted as first-appearance
order; the facts proved below are membership facts, insensitive to group
order. -/

/-- One HTML file under the docs root. -/
structure FileEntry where
  relPath : List (List Char)
  size : Nat
  extract : Option (List Char)
deriving DecidableEq

/-- Basename of the root index page. -/
def indexBasename : List Char := "index.html".toList

/-- Path component that marks rustdoc source-view pages. -/
def srcComponent : List Char := "src".toList

/-- Insert a file into its basename group, appending within the group
(`entry().or_default().push()`); new basenames open a new group at the end. -/
def addToGroup (key : List Char) (f : FileEntry) :
    List (List Char × List FileEntry) → List (List Char × List FileEntry)
  | [] => [(key, [f])]
  | (k, fs) :: rest =>
    if k = key then (k, fs ++ [f]) :: rest else (k, fs) :: addToGroup key f rest

/-- Group the files by basename (last path component); entries with an empty
path are skipped with a warning in the source. -/
def basenameGroups (files : List FileEntry) : List (List Char × List FileEntry) :=
  files.foldl (fun gs f =>
    match f.relPath.getLast? with
    | some key => addToGroup key f gs
    | none => gs) []

/-- Size fold of the duplicate-basename branch: keep the current entry only
when strictly larger (`current_size > largest_size_so_far`), so the earliest
entry wins ties.  Metadata reads are modelled as always succeeding. -/
def largestFile (fs : List FileEntry) : Option FileEntry :=
  fs.foldl (fun best f =>
    match best with
    | none => some f
    | some b => if b.size < f.size then some f else some b) none

/-- Root `index.html` selection (`docs_path.join("index.html").is_file()`). -/
def rootIndex (files : List FileEntry) : List FileEntry :=
  match files.find? (fun f => f.relPath == [indexBasename]) with
  | some f => [f]
  | none => []

/-- Source-view test of a basename group: the source checks only whether the
FIRST path of the group has a component equal to `src`. -/
def firstInSrc (root : List (List Char)) (fs : List FileEntry) : Bool :=
  match fs.head? with
  | some f => (root ++ f.relPath).contains srcComponent
  | none => false

/-- Per-group selection of `process_html_documents`: skip `index.html`
groups, skip groups whose first path is under `src`, keep the single member
of singleton groups, otherwise keep the largest member. -/
def groupSelections (root : List (List Char)) :
    List (List Char × List FileEntry) → List FileEntry
  | [] => []
  | (basename, fs) :: rest =>
    if basename = indexBasename then
      groupSelections root rest
    else if firstInSrc root fs then
      groupSelections root rest
    else if fs.length = 1 then
      fs ++ groupSelections root rest
    else
      match largestFile fs with
      | some f => f :: groupSelections root rest
      | none => groupSelections root rest

/-- Join path components with a slash (`to_string_lossy` of the relative
path). -/
def joinPath : List (List Char) → List Char
  | [] => []
  | [c] => c
  | c :: c2 :: cs => c ++ '/' :: joinPath (c2 :: cs)

/-- Components of a rendered path string. -/
def pathComponents (p : List Char) : List (List Char) := splitOnChar '/' p

/-- Model of `process_html_documents`: select the files (root index first,
then the group selections), then extract text from each selected file,
skipping unreadable files, missing selectors and empty extractions. -/
def process_html_documents (root : List (List Char)) (files : List FileEntry) :
    List Document :=
  (rootIndex files ++ groupSelections root (basenameGroups files)).filterMap
    (fun f =>
      match f.extract with
      | some text => if text.isEmpty then none else some ⟨joinPath f.relPath, text⟩
      | none => none)

/-- Docs root of the claim C7 scenario. -/
def c7Root : List (List Char) := ["docs".toList]

/-- Files of the claim C7 scenario: one basename group mixing a non-src file
(first in walk order, 1 byte) with a larger src file (2 bytes), both
extracting non-empty text. -/
def c7Files : List FileEntry :=
  [⟨["a".toList, "f.html".toList], 1, some ['x']⟩,
    ⟨["src".toList, "f.html".toList], 2, some ['y']⟩]

/-! ## Query handling (src/service.rs)

The fragment modelled is the scoring and answer-assembly part of
`handle_request` for `CallToolRequest` (after the question embedding has been
obtained).  The `f32` cosine scores are abstracted by an injected
rational-valued similarity `sim`; `chat` abstracts the chat-completion round
trip on the chosen document content and the question, returning the optional
first-choice message content or a transport error; the prompt strings are not
modelled. -/

/-- Protocol-level error (`rmcp` `ErrorData`): numeric code and message. -/
structure McpError where
  code : Int
  message : List Char
deriving DecidableEq

/-- Successful tool response (`CallToolResult`). -/
structure CallToolResult where
  content : List (List Char)
  isError : Option Bool
deriving DecidableEq

/-- Server state fields used by the query fragment (src/state.rs). -/
structure QueryState where
  crate_name : List Char
  documents : List Document
  embeddings : List (List Char × List Nat)
deriving DecidableEq

/-- Best-match loop of `handle_request`: scan the stored embeddings, keeping
the first entry and replacing it only on a strictly larger score. -/
def bestMatch (sim : List Nat → List Nat → ℚ) (qv : List Nat)
    (embeddings : List (List Char × List Nat)) : Option (List Char × ℚ) :=
  embeddings.foldl (fun best pe =>
    match best with
    | none => some (pe.1, sim qv pe.2)
    | some (bp, bs) =>
      if bs < sim qv pe.2 then some (pe.1, sim qv pe.2) else some (bp, bs)) none

/-- Final `CallToolResult` assembly: the response text is prefixed and the
result is marked as a non-error. -/
def mkToolResult (crate_name response_text : List Char) : CallToolResult :=
  { content := ["From ".toList ++ crate_name ++ " docs: ".toList ++ response_text],
    isError := some false }

/-- Fallback text when the chat response has no content. -/
def noLLMResponse : List Char := "Error: No response from LLM.".toList

/-- Text returned when the best-match path has no backing document. -/
def missingContextText : List Char :=
  "Error: Could not find content for best matching document.".toList

/-- Text returned when no embeddings are stored at all. -/
def noContextText : List Char := "Could not find any relevant document context.".toList

/-- Model of the scoring and answer-assembly fragment of `handle_request`
(service.rs lines 152 to 246). -/
def handle_query (sim : List Nat → List Nat → ℚ) (qv : List Nat) (st : QueryState)
    (question : List Char)
    (chat : List Char → List Char → Except McpError (Option (List Char))) :
    Except McpError CallToolResult :=
  match bestMatch sim qv st.embeddings with
  | some (best_path, _) =>
    match st.documents.find? (fun d => d.path == best_path) with
    | some doc =>
      match chat doc.content question with
      | .error e => .error e
      | .ok (some response) => .ok (mkToolResult st.crate_name response)
      | .ok none => .ok (mkToolResult st.crate_name noLLMResponse)
    | none => .ok (mkToolResult st.crate_name missingContextText)
  | none => .ok (mkToolResult st.crate_name noContextText)

/-- Query state of the claim C8 counterexample: one stored embedding and an
empty document list. -/
def c8State : QueryState :=
  { crate_name := "serde".toList, documents := [],
    embeddings := [("a.html".toList, [1])] }

theorem boundariesLoop_mem_le (C : DocumentChunker) :
    ∀ (bytes : List Nat) (i start h : Nat), ∀ x ∈ boundariesLoop C bytes i start h,
      x ≤ i + bytes.length := by
  intro bytes
  induction bytes with
  | nil => intro i start h x hx; simp [boundariesLoop] at hx
  | cons b rest ih =>
    intro i start h x hx
    simp only [boundariesLoop] at hx
    split at hx
    · have := ih (i + 1) start (rollStep h b) x hx
      simp only [List.length_cons]; omega
    · split at hx
      · rcases List.mem_cons.mp hx with hx | hx
        · simp only [List.length_cons]; omega
        · have := ih (i + 1) (i + 1) 0 x hx
          simp only [List.length_cons]; omega
      · split at hx
        · rcases List.mem_cons.mp hx with hx | hx
          · simp only [List.length_cons]; omega
          · have := ih (i + 1) (i + 1) 0 x hx
            simp only [List.length_cons]; omega
        · have := ih (i + 1) start (rollStep h b) x hx
          simp only [List.length_cons]; omega

theorem boundariesLoop_chainedFrom (C : DocumentChunker) :
    ∀ (bytes : List Nat) (i start h : Nat), start ≤ i →
      ChainedFrom start (boundariesLoop C bytes i start h) := by
  intro bytes
  induction bytes with
  | nil => intro i start h _; trivial
  | cons b rest ih =>
    intro i start h hsi
    simp only [boundariesLoop]
    split
    · exact ih (i + 1) start (rollStep h b) (by omega)
    · split
      · exact ⟨by omega, ih (i + 1) (i + 1) 0 (by omega)⟩
      · split
        · exact ⟨by omega, ih (i + 1) (i + 1) 0 (by omega)⟩
        · exact ih (i + 1) start (rollStep h b) (by omega)

theorem chainedFrom_append_last (L : Nat) :
    ∀ (bs : List Nat) (s : Nat), ChainedFrom s bs → (∀ x ∈ bs, x ≤ L) → s ≤ L →
      ChainedFrom s (bs ++ [L]) := by
  intro bs
  induction bs with
  | nil => intro s _ _ hsL; exact ⟨hsL, trivial⟩
  | cons b rest ih =>
    intro s hchain hmem hsL
    exact ⟨hchain.1, ih b hchain.2 (fun x hx => hmem x (List.mem_cons_of_mem b hx))
      (hmem b (List.mem_cons_self b rest))⟩

theorem chunksFrom_flatten (doc : List Nat) :
    ∀ (bs : List Nat) (start : Nat), ChainedFrom start bs →
      bs.getLast? = some doc.length →
      (chunksFrom doc start bs).flatten = doc.drop start := by
  intro bs
  induction bs with
  | nil => intro start _ hlast; simp at hlast
  | cons b rest ih =>
    intro start hchain hlast
    cases rest with
    | nil =>
      simp only [List.getLast?_singleton, Option.some.injEq] at hlast
      subst hlast
      simp only [chunksFrom, List.flatten_cons, List.flatten_nil, List.append_nil]
      rw [List.take_of_length_le (by simp)]
    | cons b2 rest2 =>
      have hlast2 : (b2 :: rest2).getLast? = some doc.length := by
        rwa [List.getLast?_cons_cons] at hlast
      have htail := ih b hchain.2 hlast2
      have hsb : start ≤ b := hchain.1
      simp only [chunksFrom, List.flatten_cons] at htail ⊢
      rw [htail]
      have hdrop : doc.drop b = (doc.drop start).drop (b - start) := by
        rw [List.drop_drop]
        congr 1
        omega
      rw [hdrop, List.take_append_drop]

theorem find_chunk_boundaries_chainedFrom (C : DocumentChunker) (d : List Nat) :
    ChainedFrom 0 (find_chunk_boundaries C d) := by
  unfold find_chunk_boundaries
  have hchain := boundariesLoop_chainedFrom C d 0 0 0 (Nat.le_refl 0)
  split
  · exact chainedFrom_append_last d.length _ 0 hchain
      (fun x hx => by simpa using boundariesLoop_mem_le C d 0 0 0 x hx) (Nat.zero_le _)
  · exact hchain

theorem find_chunk_boundaries_getLast (C : DocumentChunker) (d : List Nat)
    (hne : find_chunk_boundaries C d ≠ []) :
    (find_chunk_boundaries C d).getLast? = some d.length := by
  unfold find_chunk_boundaries at hne ⊢
  split at hne
  · next hcond =>
    rw [if_pos hcond]
    exact List.getLast?_concat _
  · next hcond =>
    rw [if_neg hcond]
    push_neg at hcond
    exact hcond hne

/-- Claim C1: for every chunker configuration and every document, the chunk
contents returned by `chunk_document`, concatenated in order, reconstruct the
document byte for byte, including the small-document and empty-boundary
cases. -/
theorem chunk_document_flatten_eq (C : DocumentChunker) (d : List Nat) :
    (chunk_document C d).flatten = d := by
  unfold chunk_document
  split
  · simp
  · split
    · simp
    · next hne =>
      have := chunksFrom_flatten d (find_chunk_boundaries C d) 0
        (find_chunk_boundaries_chainedFrom C d)
        (find_chunk_boundaries_getLast C d hne)
      simpa using this

theorem boundariesLoop_sizedFrom (C : DocumentChunker)
    (hmm : C.min_chunk_size ≤ C.max_chunk_size) (hpos : 0 < C.max_chunk_size) :
    ∀ (bytes : List Nat) (i start h : Nat), start ≤ i →
      i - start < C.max_chunk_size →
      SizedFrom C start (boundariesLoop C bytes i start h) := by
  intro bytes
  induction bytes with
  | nil => intro i start h _ _; trivial
  | cons b rest ih =>
    intro i start h hsi hinv
    simp only [boundariesLoop]
    split
    · next hlt => exact ih (i + 1) start (rollStep h b) (by omega) (by omega)
    · next hge =>
      split
      · next hmax =>
        refine ⟨by omega, by omega, ih (i + 1) (i + 1) 0 (by omega) (by omega)⟩
      · next hmax =>
        split
        · exact ⟨by omega, by omega, ih (i + 1) (i + 1) 0 (by omega) (by omega)⟩
        · exact ih (i + 1) start (rollStep h b) (by omega) (by omega)

theorem chunksFrom_length_bounds (C : DocumentChunker) (doc : List Nat) :
    ∀ (bs : List Nat) (start : Nat), SizedFrom C start bs →
      (∀ b ∈ bs, b ≤ doc.length) →
      ∀ c ∈ chunksFrom doc start bs,
        C.min_chunk_size ≤ c.length ∧ c.length ≤ C.max_chunk_size := by
  intro bs
  induction bs with
  | nil => intro start _ _ c hc; simp [chunksFrom] at hc
  | cons b rest ih =>
    intro start hsized hmem c hc
    simp only [chunksFrom, List.mem_cons] at hc
    rcases hc with hc | hc
    · subst hc
      have hble : b ≤ doc.length := hmem b (List.mem_cons_self b rest)
      have hlen : ((doc.drop start).take (b - start)).length = b - start := by
        simp only [List.length_take, List.length_drop]
        omega
      rw [hlen]
      exact ⟨hsized.1, hsized.2.1⟩
    · exact ih b hsized.2.2 (fun x hx => hmem x (List.mem_cons_of_mem b hx)) c hc

theorem chunksFrom_append (doc : List Nat) :
    ∀ (l1 l2 : List Nat) (start : Nat),
      chunksFrom doc start (l1 ++ l2) =
        chunksFrom doc start l1 ++ chunksFrom doc (l1.getLastD start) l2 := by
  intro l1
  induction l1 with
  | nil => intro l2 start; simp [chunksFrom]
  | cons b rest ih =>
    intro l2 start
    simp only [List.cons_append, chunksFrom, List.getLastD_cons, List.append_eq, ih]

/-- Claim C2, amended: with `min_chunk_size ≤ target_chunk_size ≤ max_chunk_size`
and a positive `max_chunk_size`, every chunk produced by `chunk_document` on a
document longer than `min_chunk_size`, except possibly the last one, has length
between `min_chunk_size` and `max_chunk_size`.  The positivity hypothesis is
forced by the counterexample with all three tunables equal to zero. -/
theorem chunk_document_size_bounds (C : DocumentChunker) (d : List Nat)
    (hmt : C.min_chunk_size ≤ C.target_chunk_size)
    (htm : C.target_chunk_size ≤ C.max_chunk_size)
    (hpos : 0 < C.max_chunk_size)
    (hlen : C.min_chunk_size < d.length) :
    ∀ c ∈ (chunk_document C d).dropLast,
      C.min_chunk_size ≤ c.length ∧ c.length ≤ C.max_chunk_size := by
  intro c hc
  have hmm : C.min_chunk_size ≤ C.max_chunk_size := le_trans hmt htm
  have hsized := boundariesLoop_sizedFrom C hmm hpos d 0 0 0 (Nat.le_refl 0) (by omega)
  have hmemle : ∀ b ∈ boundariesLoop C d 0 0 0, b ≤ d.length := fun b hb => by
    simpa using boundariesLoop_mem_le C d 0 0 0 b hb
  unfold chunk_document at hc
  rw [if_neg (by omega)] at hc
  split at hc
  · simp at hc
  · unfold find_chunk_boundaries at hc
    split at hc
    · rw [chunksFrom_append] at hc
      simp only [chunksFrom] at hc
      rw [List.dropLast_concat] at hc
      exact chunksFrom_length_bounds C d _ 0 hsized hmemle c hc
    · have hsub := List.dropLast_subset _ hc
      exact chunksFrom_length_bounds C d _ 0 hsized hmemle c hsub

/-- Claim C2, counterexample: with tunables `0 / 0 / 0` (satisfying
`min ≤ target ≤ max`) and the two-byte document `"ab"`, whose length exceeds
`min_chunk_size`, the first (non-final) chunk has length 1, strictly above
`max_chunk_size = 0`. -/
theorem chunk_document_size_bounds_cex :
    (⟨0, 0, 0⟩ : DocumentChunker).min_chunk_size ≤
        (⟨0, 0, 0⟩ : DocumentChunker).target_chunk_size ∧
      (⟨0, 0, 0⟩ : DocumentChunker).target_chunk_size ≤
        (⟨0, 0, 0⟩ : DocumentChunker).max_chunk_size ∧
      (⟨0, 0, 0⟩ : DocumentChunker).min_chunk_size < ([97, 98] : List Nat).length ∧
      ∃ c ∈ (chunk_document ⟨0, 0, 0⟩ [97, 98]).dropLast,
        ¬ c.length ≤ (⟨0, 0, 0⟩ : DocumentChunker).max_chunk_size := by
  decide

/-- Witness for `chunk_document_size_bounds` at the concrete tunables `1 / 2 / 4`
and document `[97, 98, 99]`, whose non-final chunk is `[97, 98]`. -/
theorem chunk_document_size_bounds_witness :
    (⟨1, 2, 4⟩ : DocumentChunker).min_chunk_size ≤ ([97, 98] : List Nat).length ∧
      ([97, 98] : List Nat).length ≤ (⟨1, 2, 4⟩ : DocumentChunker).max_chunk_size :=
  chunk_document_size_bounds ⟨1, 2, 4⟩ [97, 98, 99]
    (by decide) (by decide) (by decide) (by decide) [97, 98] (by decide)

/-- Claim C10: refuted on the code.  `find_chunk_boundaries` counts raw bytes,
so a boundary can fall inside a multi-byte UTF-8 character, on which
`chunk_document` would slice `&document[start..boundary]` at a non-character
boundary and panic.  With the tunables `50 / 100 / 200` (used verbatim by the
repository test suite) and the 100-character document of 99 `a` characters
followed by `é`, the target-size rule emits boundary 100, which falls between
the two bytes of `é`: position 100 holds the continuation byte 0xA9. -/
theorem find_chunk_boundaries_splits_char :
    100 ∈ find_chunk_boundaries (DocumentChunker.with_params 50 100 200) panicDoc ∧
      is_char_boundary panicDoc 100 = false ∧
      panicDoc.length = 101 ∧
      (⟨50, 100, 200⟩ : DocumentChunker).min_chunk_size < panicDoc.length := by
  set_option maxRecDepth 4000 in decide

theorem splitOnChar_ne_nil (sep : Char) (s : List Char) : splitOnChar sep s ≠ [] := by
  cases s with
  | nil => simp [splitOnChar]
  | cons c rest =>
    cases h : splitOnChar sep rest with
    | nil => simp [splitOnChar, h]
    | cons seg segs =>
      simp only [splitOnChar, h]
      split <;> simp

theorem not_mem_of_mem_splitOnChar (sep : Char) :
    ∀ (s : List Char) (seg : List Char), seg ∈ splitOnChar sep s → sep ∉ seg := by
  intro s
  induction s with
  | nil =>
    intro seg hseg
    simp only [splitOnChar, List.mem_singleton] at hseg
    subst hseg
    simp
  | cons c rest ih =>
    intro seg hseg
    cases h : splitOnChar sep rest with
    | nil => exact absurd h (splitOnChar_ne_nil sep rest)
    | cons seg0 segs =>
      simp only [splitOnChar, h] at hseg
      split at hseg
      · next hc =>
        rcases List.mem_cons.mp hseg with h1 | h1
        · subst h1; simp
        · exact ih seg (h ▸ h1)
      · next hc =>
        rcases List.mem_cons.mp hseg with h1 | h1
        · subst h1
          intro hmem
          rcases List.mem_cons.mp hmem with h2 | h2
          · exact hc h2.symm
          · exact ih seg0 (h ▸ List.mem_cons_self seg0 segs) h2
        · exact ih seg (h ▸ List.mem_cons_of_mem seg0 h1)

theorem splitOnChar_eq_singleton (sep : Char) :
    ∀ l : List Char, sep ∉ l → splitOnChar sep l = [l] := by
  intro l
  induction l with
  | nil => intro _; rfl
  | cons c rest ih =>
    intro h
    have hc : ¬ c = sep := fun e => h (e ▸ List.mem_cons_self c rest)
    have hr := ih (fun hm => h (List.mem_cons_of_mem c hm))
    simp only [splitOnChar, hr]
    simp [hc]

theorem splitOnChar_append_sep (sep : Char) :
    ∀ (l t : List Char), sep ∉ l →
      splitOnChar sep (l ++ sep :: t) = l :: splitOnChar sep t := by
  intro l
  induction l with
  | nil =>
    intro t _
    simp only [List.nil_append, splitOnChar]
    cases h : splitOnChar sep t with
    | nil => exact absurd h (splitOnChar_ne_nil sep t)
    | cons seg segs => simp
  | cons c rest ih =>
    intro t h
    have hc : ¬ c = sep := fun e => h (e ▸ List.mem_cons_self c rest)
    have hr := ih t (fun hm => h (List.mem_cons_of_mem c hm))
    simp only [List.cons_append, splitOnChar, List.append_eq]
    rw [hr]
    simp [hc]

theorem splitOnChar_joinLines :
    ∀ L : List (List Char), (∀ l ∈ L, ('\n' : Char) ∉ l) → L ≠ [] →
      splitOnChar '\n' (joinLines L) = L := by
  intro L
  induction L with
  | nil => intro _ h; exact absurd rfl h
  | cons l ls ih =>
    intro hmem _
    cases ls with
    | nil => exact splitOnChar_eq_singleton _ l (hmem l (List.mem_cons_self _ _))
    | cons l2 ls2 =>
      simp only [joinLines]
      rw [splitOnChar_append_sep _ _ _ (hmem l (List.mem_cons_self _ _))]
      rw [ih (fun x hx => hmem x (List.mem_cons_of_mem _ hx)) (by simp)]

theorem head?_dropWhile_false (p : Char → Bool) :
    ∀ (l : List Char) (a : Char), (l.dropWhile p).head? = some a → p a = false := by
  intro l
  induction l with
  | nil => intro a h; simp at h
  | cons c t ih =>
    intro a h
    rw [List.dropWhile_cons] at h
    split at h
    · exact ih a h
    · next hc =>
      simp only [List.head?_cons, Option.some.injEq] at h
      subst h
      simpa using hc

theorem dropWhile_eq_self_of_head (p : Char → Bool) (l : List Char)
    (h : ∀ a, l.head? = some a → p a = false) : l.dropWhile p = l := by
  cases l with
  | nil => rfl
  | cons c t =>
    have := h c rfl
    rw [List.dropWhile_cons, if_neg (by simp [this])]

theorem trimEnd_isPrefix (l : List Char) : trimEnd l <+: l := by
  unfold trimEnd
  have h := @List.dropWhile_suffix Char l.reverse isWhitespaceChar
  have h2 := (@List.reverse_prefix Char
    (List.dropWhile isWhitespaceChar l.reverse) l.reverse).mpr h
  rwa [List.reverse_reverse] at h2

theorem isPrefix_head? {l₁ l₂ : List Char} (h : l₁ <+: l₂) (a : Char)
    (ha : l₁.head? = some a) : l₂.head? = some a := by
  obtain ⟨t, rfl⟩ := h
  rw [List.head?_append, ha]
  rfl

theorem trimEnd_getLast?_not_ws (l : List Char) (a : Char)
    (h : (trimEnd l).getLast? = some a) : isWhitespaceChar a = false := by
  unfold trimEnd at h
  rw [List.getLast?_reverse] at h
  exact head?_dropWhile_false _ _ a h

theorem rustTrim_head?_not_ws (l : List Char) (a : Char)
    (h : (rustTrim l).head? = some a) : isWhitespaceChar a = false := by
  unfold rustTrim at h
  have h2 := isPrefix_head? (trimEnd_isPrefix (trimStart l)) a h
  unfold trimStart at h2
  exact head?_dropWhile_false _ _ a h2

theorem rustTrim_eq_self (l : List Char)
    (hh : ∀ a, l.head? = some a → isWhitespaceChar a = false)
    (hl : ∀ a, l.getLast? = some a → isWhitespaceChar a = false) : rustTrim l = l := by
  unfold rustTrim trimStart trimEnd
  rw [dropWhile_eq_self_of_head _ l hh]
  rw [dropWhile_eq_self_of_head _ l.reverse
    (fun a ha => hl a (by rwa [List.head?_reverse] at ha))]
  exact List.reverse_reverse l

theorem rustTrim_subset (l : List Char) : rustTrim l ⊆ l := by
  intro x hx
  have h1 : x ∈ trimStart l := (trimEnd_isPrefix (trimStart l)).subset hx
  unfold trimStart at h1
  exact (List.dropWhile_suffix isWhitespaceChar).subset h1

theorem mem_of_getLast?_eq {l : List Char} {a : Char} (h : l.getLast? = some a) :
    a ∈ l := by
  obtain ⟨ys, rfl⟩ := List.getLast?_eq_some_iff.mp h
  simp

theorem mem_of_getLast?_eq_lists {L : List (List Char)} {a : List Char}
    (h : L.getLast? = some a) : a ∈ L := by
  obtain ⟨ys, rfl⟩ := List.getLast?_eq_some_iff.mp h
  simp

theorem stripTrailingCR_eq_self (l : List Char)
    (h : ∀ a, l.getLast? = some a → isWhitespaceChar a = false) :
    stripTrailingCR l = l := by
  unfold stripTrailingCR
  rw [if_neg]
  intro hcr
  exact absurd (h _ hcr) (by decide)

theorem normalizedLines_mem {s : List Char} {l : List Char} (h : l ∈ normalizedLines s) :
    l.isEmpty = false ∧ ('\n' : Char) ∉ l ∧
      (∀ a, l.head? = some a → isWhitespaceChar a = false) ∧
      (∀ a, l.getLast? = some a → isWhitespaceChar a = false) := by
  unfold normalizedLines at h
  obtain ⟨hmap, hne⟩ := List.mem_filter.mp h
  obtain ⟨seg1, hseg1, rfl⟩ := List.mem_map.mp hmap
  refine ⟨by simpa using hne, ?_, fun a ha => rustTrim_head?_not_ws _ a ha,
    fun a ha => trimEnd_getLast?_not_ws (trimStart seg1) a ha⟩
  intro hmem
  have hm2 : ('\n' : Char) ∈ seg1 := rustTrim_subset seg1 hmem
  unfold rustLines at hseg1
  obtain ⟨seg0, hseg0, rfl⟩ := List.mem_map.mp hseg1
  have hseg0m : seg0 ∈ splitOnChar '\n' s := by
    split at hseg0
    · exact List.dropLast_subset _ hseg0
    · exact hseg0
  have hnl : ('\n' : Char) ∉ seg0 := not_mem_of_mem_splitOnChar '\n' s seg0 hseg0m
  apply hnl
  unfold stripTrailingCR at hm2
  split at hm2
  · exact List.dropLast_subset _ hm2
  · exact hm2

theorem normalizedLines_joinLines (L : List (List Char))
    (hprops : ∀ l ∈ L, l.isEmpty = false ∧ ('\n' : Char) ∉ l ∧
      (∀ a, l.head? = some a → isWhitespaceChar a = false) ∧
      (∀ a, l.getLast? = some a → isWhitespaceChar a = false)) :
    normalizedLines (joinLines L) = L := by
  cases hLshape : L with
  | nil => rfl
  | cons l0 ls0 =>
    rw [← hLshape]
    have hLne : L ≠ [] := by rw [hLshape]; simp
    have hsplit : splitOnChar '\n' (joinLines L) = L :=
      splitOnChar_joinLines L (fun l hl => (hprops l hl).2.1) hLne
    have hlastne : (splitOnChar '\n' (joinLines L)).getLast? ≠ some [] := by
      rw [hsplit]
      intro hcon
      have hmem := mem_of_getLast?_eq_lists hcon
      have := (hprops [] hmem).1
      simp at this
    unfold normalizedLines rustLines
    rw [if_neg hlastne, hsplit]
    have hstrip : L.map stripTrailingCR = L := by
      have heq : ∀ l ∈ L, stripTrailingCR l = l :=
        fun l hl => stripTrailingCR_eq_self l (hprops l hl).2.2.2
      calc L.map stripTrailingCR = L.map id := List.map_congr_left heq
        _ = L := List.map_id L
    rw [hstrip]
    have htrim : L.map rustTrim = L := by
      have heq : ∀ l ∈ L, rustTrim l = l :=
        fun l hl => rustTrim_eq_self l (hprops l hl).2.2.1 (hprops l hl).2.2.2
      calc L.map rustTrim = L.map id := List.map_congr_left heq
        _ = L := List.map_id L
    rw [htrim]
    exact List.filter_eq_self.mpr (fun l hl => by simp [(hprops l hl).1])

theorem normalize_content_idem (s : List Char) :
    normalize_content (normalize_content s) = normalize_content s := by
  show joinLines (normalizedLines (joinLines (normalizedLines s)))
    = joinLines (normalizedLines s)
  rw [normalizedLines_joinLines (normalizedLines s) (fun l hl => normalizedLines_mem hl)]

/-- Claim C5: the whitespace-normalised content hash is reflow-stable.  For
every string `x`, `compute_content_hash x` equals the hash of the reflowed
string (lines trimmed, blank lines dropped, rejoined with single newlines),
and `normalize_content` is idempotent, so the hash depends only on the
normalised form. -/
theorem compute_content_hash_reflow_stable (s : List Char) :
    compute_content_hash s = compute_content_hash (reflowSpec s) ∧
      normalize_content (normalize_content s) = normalize_content s := by
  have hidem := normalize_content_idem s
  refine ⟨?_, hidem⟩
  show hash_string (normalize_content s) = hash_string (normalize_content (reflowSpec s))
  have hrf : reflowSpec s = normalize_content s := rfl
  rw [hrf, hidem]

theorem decodeVarint_encodeVarint (n : Nat) (hn : n < 18446744073709551616)
    (rest : List Nat) : decodeVarint (encodeVarint n ++ rest) = some (n, rest) := by
  unfold encodeVarint
  split
  · next h1 =>
    simp only [List.cons_append, List.nil_append, decodeVarint]
    rw [if_pos h1]
  · next h1 =>
    split
    · next h2 =>
      simp only [List.cons_append, List.nil_append, decodeVarint, if_true,
        Option.some.injEq, Prod.mk.injEq, and_true, true_and]
      rw [if_neg (by decide : ¬ (251 : Nat) < 251)]
      simp only [Option.some.injEq, Prod.mk.injEq, and_true, true_and]
      omega
    · next h2 =>
      split
      · next h3 =>
        simp only [List.cons_append, List.nil_append, decodeVarint, if_true,
          Option.some.injEq, Prod.mk.injEq, and_true, true_and]
        rw [if_neg (by decide : ¬ (252 : Nat) < 251),
          if_neg (by decide : ¬ (252 : Nat) = 251)]
        simp only [Option.some.injEq, Prod.mk.injEq, and_true, true_and]
        omega
      · next h3 =>
        simp only [List.cons_append, List.nil_append, decodeVarint, if_true,
          Option.some.injEq, Prod.mk.injEq, and_true, true_and]
        rw [if_neg (by decide : ¬ (253 : Nat) < 251),
          if_neg (by decide : ¬ (253 : Nat) = 251),
          if_neg (by decide : ¬ (253 : Nat) = 252)]
        simp only [Option.some.injEq, Prod.mk.injEq, and_true, true_and]
        omega

theorem decodeF32s_encode (v : List Nat) (hv : ∀ x ∈ v, x < 4294967296)
    (rest : List Nat) :
    decodeF32s v.length ((v.map encodeF32).flatten ++ rest) = some (v, rest) := by
  induction v with
  | nil => simp [decodeF32s]
  | cons x xs ih =>
    have hx : x < 4294967296 := hv x (List.mem_cons_self x xs)
    have ih2 := ih (fun y hy => hv y (List.mem_cons_of_mem x hy))
    simp only [List.map_cons, List.flatten_cons, List.length_cons, encodeF32,
      List.cons_append, List.nil_append, List.append_eq, List.append_assoc, decodeF32s]
    rw [ih2]
    simp only [Option.some.injEq, Prod.mk.injEq, List.cons.injEq, and_true, true_and]
    omega

theorem decodeVec_encodeVec (v : List Nat) (hlen : v.length < 18446744073709551616)
    (hv : ∀ x ∈ v, x < 4294967296) : decodeVec (encodeVec v) = some v := by
  have h1 : decodeVarint (encodeVec v) = some (v.length, (v.map encodeF32).flatten) := by
    unfold encodeVec
    rw [decodeVarint_encodeVarint v.length hlen]
  have h2 : decodeF32s v.length ((v.map encodeF32).flatten) = some (v, []) := by
    have h3 := decodeF32s_encode v hv []
    rwa [List.append_nil] at h3
  unfold decodeVec
  simp only [h1, h2]

/-- Claim C3: after `store_embedding c v` succeeds, `get_embedding c2` returns
the stored vector for every `c2` whose whitespace-normalised form equals the
one of `c` (in particular `c2 = c`), both through the in-memory tier and,
with the in-memory tier emptied as by a process restart, through decoding the
on-disk file named by the 16-hex-digit content hash with the `.bin`
extension.  The two numeric hypotheses state that the stored value is a real
`Vec<f32>`: its `usize` length fits in a `u64` and every element is a 32-bit
pattern. -/
theorem store_then_get (st : CacheState) (c c2 : List Char) (v : List Nat)
    (hnorm : normalize_content c2 = normalize_content c)
    (hlen : v.length < 18446744073709551616)
    (hv : ∀ x ∈ v, x < 4294967296) :
    (get_embedding (store_embedding st c v .ok).1 c2).1 = some v ∧
      (get_embedding { mem := [], disk := (store_embedding st c v .ok).1.disk } c2).1
        = some v := by
  have hhash : compute_content_hash c2 = compute_content_hash c := by
    unfold compute_content_hash
    rw [hnorm]
  constructor
  · simp [get_embedding, store_embedding, hhash, List.lookup]
  · simp [get_embedding, store_embedding, hhash, List.lookup,
      decodeVec_encodeVec v hlen hv]

/-- Witness for `store_then_get`: the literal whitespace-invariance scenario
of the spec, storing the bit pattern of `1.0f32` under the content
`"a\nb\n"` and reading it back through `"  a  \n\n\nb  \n"`. -/
theorem store_then_get_witness :
    (get_embedding (store_embedding ⟨[], []⟩ "a\nb\n".toList [1065353216] .ok).1
        "  a  \n\n\nb  \n".toList).1 = some [1065353216] ∧
      (get_embedding
        { mem := [],
          disk := (store_embedding ⟨[], []⟩ "a\nb\n".toList [1065353216] .ok).1.disk }
        "  a  \n\n\nb  \n".toList).1 = some [1065353216] :=
  store_then_get ⟨[], []⟩ "a\nb\n".toList "  a  \n\n\nb  \n".toList [1065353216]
    (by decide) (by decide) (by decide)

/-- Claim C4, counterexample: when the disk half of the write path fails
(cache-directory resolution error), `store_embedding` returns `Err` but the
key is already in the in-memory map while no `.bin` file exists on disk —
refuting the claim that `store_embedding` never returns (with either `Ok` or
`Err`) leaving an in-memory key whose file was not written. -/
theorem store_embedding_mem_without_disk :
    (store_embedding ⟨[], []⟩ ['a'] [0] .dirFail).2 = .error .xdg ∧
      (store_embedding ⟨[], []⟩ ['a'] [0] .dirFail).1.mem.lookup
        (compute_content_hash ['a']) = some [0] ∧
      (store_embedding ⟨[], []⟩ ['a'] [0] .dirFail).1.disk.lookup
        (cacheFileName (compute_content_hash ['a'])) = none := by
  exact ⟨rfl, by decide, by decide⟩

/-- Claim C4, amended: `store_embedding` inserts into the in-memory map
before the disk write.  Whenever it returns `Ok`, the key is present in both
tiers (the hash-named file holds the encoded vector).  On failure it returns
`Err` with the key present in the in-memory map, while the on-disk tier
depends on the failure point: cache-directory resolution and file-creation
failures leave the disk unchanged (no file written), and an encode failure
after the truncating `File::create` leaves the hash-named file holding only
the partially written bytes, destroying any previous content stored under
that name. -/
theorem store_embedding_write_through (st : CacheState) (c : List Char)
    (v w : List Nat) :
    ((store_embedding st c v .ok).2 = .ok () ∧
      (store_embedding st c v .ok).1.mem.lookup (compute_content_hash c) = some v ∧
      (store_embedding st c v .ok).1.disk.lookup (cacheFileName (compute_content_hash c))
        = some (encodeVec v)) ∧
    ((store_embedding st c v .dirFail).2 = .error .xdg ∧
      (store_embedding st c v .dirFail).1.mem.lookup (compute_content_hash c) = some v ∧
      (store_embedding st c v .dirFail).1.disk = st.disk) ∧
    ((store_embedding st c v .createFail).2 = .error .ioErr ∧
      (store_embedding st c v .createFail).1.mem.lookup (compute_content_hash c) = some v ∧
      (store_embedding st c v .createFail).1.disk = st.disk) ∧
    ((store_embedding st c v (.encodeFail w)).2 = .error .config ∧
      (store_embedding st c v (.encodeFail w)).1.mem.lookup (compute_content_hash c)
        = some v ∧
      (store_embedding st c v (.encodeFail w)).1.disk.lookup
        (cacheFileName (compute_content_hash c)) = some w) := by
  refine ⟨⟨rfl, ?_, ?_⟩, ⟨rfl, ?_, rfl⟩, ⟨rfl, ?_, rfl⟩, ⟨rfl, ?_, ?_⟩⟩ <;>
    simp [store_embedding, List.lookup]

/-- Witness for `store_embedding_write_through` at a concrete input, showing
the encode-failure path truncating a previously valid file: the disk starts
with the full encoding of the vector under the hash-named file, and after the
failing store the same name maps to the empty partial write. -/
theorem store_embedding_write_through_witness :
    (store_embedding
        ⟨[], [(cacheFileName (compute_content_hash ['b']), encodeVec [2])]⟩
        ['b'] [2] (.encodeFail [])).2 = .error .config ∧
      (store_embedding
          ⟨[], [(cacheFileName (compute_content_hash ['b']), encodeVec [2])]⟩
          ['b'] [2] (.encodeFail [])).1.disk.lookup
        (cacheFileName (compute_content_hash ['b'])) = some [] :=
  ⟨(store_embedding_write_through
      ⟨[], [(cacheFileName (compute_content_hash ['b']), encodeVec [2])]⟩
      ['b'] [2] []).2.2.2.1,
    (store_embedding_write_through
      ⟨[], [(cacheFileName (compute_content_hash ['b']), encodeVec [2])]⟩
      ['b'] [2] []).2.2.2.2.2⟩

theorem collectResults_ok_spec :
    ∀ (rs : List (Except EmbedError (Option (List Char × Embedding × Nat))))
      (pairs : List (List Char × Embedding)) (total : Nat),
      collectResults rs = .ok (pairs, total) →
      (∀ e, Except.error e ∉ rs) ∧
        pairs.length = rs.countP isEmitted ∧
        total = (rs.map tokenOf).sum := by
  intro rs
  induction rs with
  | nil =>
    intro pairs total h
    simp only [collectResults, Except.ok.injEq, Prod.mk.injEq] at h
    obtain ⟨h1, h2⟩ := h
    subst h1; subst h2
    exact ⟨fun e => List.not_mem_nil _, rfl, rfl⟩
  | cons r rest ih =>
    intro pairs total h
    cases r with
    | error e =>
      rw [show collectResults (Except.error e :: rest) = Except.error e from rfl] at h
      exact Except.noConfusion h
    | ok o =>
      cases o with
      | none =>
        obtain ⟨hmem, hcount, hsum⟩ :=
          ih pairs total (by
            rwa [show collectResults (Except.ok none :: rest) = collectResults rest
              from rfl] at h)
        refine ⟨fun e => ?_, ?_, ?_⟩
        · intro hin
          rcases List.mem_cons.mp hin with h1 | h1
          · exact Except.noConfusion h1
          · exact hmem e h1
        · rw [List.countP_cons, show isEmitted (Except.ok none) = false from rfl]
          simpa using hcount
        · rw [List.map_cons, List.sum_cons,
            show tokenOf (Except.ok none) = 0 from rfl, hsum, Nat.zero_add]
      | some trip =>
        obtain ⟨path, embedding, tokens⟩ := trip
        simp only [collectResults] at h
        cases hrest : collectResults rest with
        | error e =>
          rw [hrest] at h
          exact Except.noConfusion h
        | ok pt =>
          obtain ⟨pairs2, total2⟩ := pt
          rw [hrest] at h
          simp only [Except.ok.injEq, Prod.mk.injEq] at h
          obtain ⟨hp, ht⟩ := h
          obtain ⟨hmem, hcount, hsum⟩ := ih pairs2 total2 hrest
          subst hp; subst ht
          refine ⟨fun e => ?_, ?_, ?_⟩
          · intro hin
            rcases List.mem_cons.mp hin with h1 | h1
            · exact Except.noConfusion h1
            · exact hmem e h1
          · rw [List.countP_cons,
              show isEmitted (Except.ok (some (path, embedding, tokens))) = true from rfl,
              List.length_cons, hcount]
            simp
          · rw [List.map_cons, List.sum_cons,
              show tokenOf (Except.ok (some (path, embedding, tokens))) = tokens from rfl,
              hsum]

theorem sum_tok_filter (tok : List Char → Nat) :
    ∀ l : List Document,
      (l.map (fun d => if tok d.content ≤ TOKEN_LIMIT then tok d.content else 0)).sum
        = ((l.filter (fun d => tok d.content ≤ TOKEN_LIMIT)).map
            (fun d => tok d.content)).sum := by
  intro l
  induction l with
  | nil => rfl
  | cons a t ih =>
    by_cases h : tok a.content ≤ TOKEN_LIMIT
    · simp [List.filter_cons, h, ih]
    · simp [List.filter_cons, h, ih]

/-- Claim C6: in `generate_embeddings`, every document whose token count
exceeds `TOKEN_LIMIT` contributes no pair and zero tokens.  For any
completion-order permutation `rs` of the per-document results, if the
collection succeeds then the pair list has exactly one entry per document
within the cap, the token total is the sum over exactly those documents, and
when at least one document exceeds the cap the pair list is strictly shorter
than the input list. -/
theorem generate_embeddings_token_cap
    (tok : List Char → Nat) (api : Document → Except EmbedError (List (List Nat)))
    (model : List Char) (documents : List Document)
    (rs : List (Except EmbedError (Option (List Char × Embedding × Nat))))
    (hperm : rs.Perm (documents.map (perDocResult tok api model)))
    (pairs : List (List Char × Embedding)) (total : Nat)
    (hok : collectResults rs = .ok (pairs, total))
    (hexceed : ∃ d ∈ documents, TOKEN_LIMIT < tok d.content) :
    pairs.length = (documents.filter (fun d => tok d.content ≤ TOKEN_LIMIT)).length ∧
      total = ((documents.filter (fun d => tok d.content ≤ TOKEN_LIMIT)).map
        (fun d => tok d.content)).sum ∧
      pairs.length < documents.length := by
  obtain ⟨hnoerr, hcount, hsum⟩ := collectResults_ok_spec rs pairs total hok
  have hchar : ∀ d ∈ documents, tok d.content ≤ TOKEN_LIMIT →
      ∃ vec, perDocResult tok api model d
        = .ok (some (d.path, Embedding.new vec .OpenAI model, tok d.content)) := by
    intro d hd hle
    have hmem : perDocResult tok api model d ∈ rs :=
      hperm.mem_iff.mpr (List.mem_map_of_mem _ hd)
    have hpd : perDocResult tok api model d =
        match api d with
        | .error e => .error e
        | .ok [vector] =>
          .ok (some (d.path, Embedding.new vector .OpenAI model, tok d.content))
        | .ok _ => .error .providerContract := by
      unfold perDocResult
      rw [if_neg (by omega)]
    cases hapi : api d with
    | error e =>
      simp only [hpd, hapi] at hmem
      exact absurd hmem (hnoerr e)
    | ok data =>
      cases data with
      | nil =>
        simp only [hpd, hapi] at hmem
        exact absurd hmem (hnoerr .providerContract)
      | cons v vs =>
        cases vs with
        | nil => exact ⟨v, by simp only [hpd, hapi]⟩
        | cons w ws =>
          simp only [hpd, hapi] at hmem
          exact absurd hmem (hnoerr .providerContract)
  have hskip : ∀ d ∈ documents, TOKEN_LIMIT < tok d.content →
      perDocResult tok api model d = .ok none := by
    intro d _ hgt
    unfold perDocResult
    rw [if_pos hgt]
  have hP : rs.countP isEmitted
      = documents.countP (fun d => tok d.content ≤ TOKEN_LIMIT) := by
    rw [hperm.countP_eq, List.countP_map]
    apply List.countP_congr
    intro d hd
    constructor
    · intro hPt
      by_contra hgt
      have hgt2 : TOKEN_LIMIT < tok d.content := by
        simp only [decide_eq_true_eq] at hgt
        omega
      rw [Function.comp_apply, hskip d hd hgt2] at hPt
      exact Bool.noConfusion hPt
    · intro hle
      have hle2 : tok d.content ≤ TOKEN_LIMIT := by simpa using hle
      obtain ⟨vec, hv⟩ := hchar d hd hle2
      rw [Function.comp_apply, hv]
      rfl
  have hlt : documents.countP (fun d => tok d.content ≤ TOKEN_LIMIT)
      < documents.length := by
    obtain ⟨d0, hd0, hgt⟩ := hexceed
    have hle := @List.countP_le_length Document
      (fun d => decide (tok d.content ≤ TOKEN_LIMIT)) documents
    rcases Nat.lt_or_ge (documents.countP (fun d => tok d.content ≤ TOKEN_LIMIT))
      documents.length with h | h
    · exact h
    · exfalso
      have heq : documents.countP (fun d => tok d.content ≤ TOKEN_LIMIT)
          = documents.length := le_antisymm hle h
      have hall := List.countP_eq_length.mp heq d0 hd0
      simp only [decide_eq_true_eq] at hall
      omega
  have hSum : total = ((documents.filter (fun d => tok d.content ≤ TOKEN_LIMIT)).map
      (fun d => tok d.content)).sum := by
    have hsum2 := (hperm.map tokenOf).sum_eq
    rw [List.map_map] at hsum2
    have hptw : ∀ d ∈ documents,
        (tokenOf ∘ perDocResult tok api model) d
          = if tok d.content ≤ TOKEN_LIMIT then tok d.content else 0 := by
      intro d hd
      by_cases hle : tok d.content ≤ TOKEN_LIMIT
      · obtain ⟨vec, hv⟩ := hchar d hd hle
        rw [Function.comp_apply, hv, if_pos hle]
        rfl
      · have hgt : TOKEN_LIMIT < tok d.content := by omega
        rw [Function.comp_apply, hskip d hd hgt, if_neg hle]
        rfl
    rw [List.map_congr_left hptw, sum_tok_filter] at hsum2
    rw [hsum, hsum2]
  refine ⟨?_, hSum, ?_⟩
  · rw [hcount, hP, List.countP_eq_length_filter]
  · rw [hcount, hP]
    exact hlt

/-- Witness for `generate_embeddings_token_cap`: two documents, the second
over the token cap, accepted API responses of one vector each, results in
input order. -/
theorem generate_embeddings_token_cap_witness :
    ([("a".toList, Embedding.new [7] .OpenAI "m".toList)]
        : List (List Char × Embedding)).length
      = (([⟨"a".toList, []⟩, ⟨"b".toList, ['y']⟩] : List Document).filter
          (fun d => (fun c : List Char => 8001 * c.length) d.content ≤ TOKEN_LIMIT)).length ∧
      0 = ((([⟨"a".toList, []⟩, ⟨"b".toList, ['y']⟩] : List Document).filter
          (fun d => (fun c : List Char => 8001 * c.length) d.content ≤ TOKEN_LIMIT)).map
            (fun d => (fun c : List Char => 8001 * c.length) d.content)).sum ∧
      ([("a".toList, Embedding.new [7] .OpenAI "m".toList)]
          : List (List Char × Embedding)).length
        < ([⟨"a".toList, []⟩, ⟨"b".toList, ['y']⟩] : List Document).length :=
  generate_embeddings_token_cap (fun c => 8001 * c.length) (fun _ => .ok [[7]])
    "m".toList [⟨"a".toList, []⟩, ⟨"b".toList, ['y']⟩]
    (([⟨"a".toList, []⟩, ⟨"b".toList, ['y']⟩] : List Document).map
      (perDocResult (fun c => 8001 * c.length) (fun _ => .ok [[7]]) "m".toList))
    (List.Perm.refl _)
    [("a".toList, Embedding.new [7] .OpenAI "m".toList)] 0 rfl
    ⟨⟨"b".toList, ['y']⟩, by decide, by decide⟩

/-- Claim C7: refuted on the code (code bug).  The `src` exclusion in
`process_html_documents` inspects only the FIRST path of each basename
group, so when a basename group mixes a non-src file (first in walk order)
with a larger file under `src`, the largest-file rule selects the src file
and a Document whose path has a `src` component is returned.  Concrete
scenario: files `a/f.html` (1 byte) and `src/f.html` (2 bytes) under root
`docs`, both extracting non-empty text. -/
theorem process_html_documents_src_leak :
    process_html_documents c7Root c7Files
        = [{ path := "src/f.html".toList, content := ['y'] }] ∧
      ∃ d ∈ process_html_documents c7Root c7Files,
        srcComponent ∈ pathComponents d.path := by
  decide

/-- Claim C8, counterexample: with one stored embedding whose path has no
backing document, the query fragment returns a SUCCESSFUL `CallToolResult`
(`is_error = false`) carrying the fixed error text, not a protocol-level
error of kind `ContextMissing` as the claim states. -/
theorem handle_query_missing_doc_cex :
    bestMatch (fun _ _ => 0) [] c8State.embeddings = some ("a.html".toList, 0) ∧
      c8State.documents = [] ∧
      handle_query (fun _ _ => 0) [] c8State [] (fun _ _ => .ok none)
        = .ok (mkToolResult "serde".toList missingContextText) :=
  ⟨rfl, rfl, rfl⟩

/-- Claim C8, amended: whenever the best-match loop selects a path and no
stored Document carries that path, `handle_request` returns a successful
`CallToolResult` with `is_error = false` whose text is the fixed string
"Error: Could not find content for best matching document." (prefixed with
the crate banner); no protocol-level error is produced and the chat endpoint
is not consulted. -/
theorem handle_query_missing_doc (sim : List Nat → List Nat → ℚ) (qv : List Nat)
    (st : QueryState) (question : List Char)
    (chat : List Char → List Char → Except McpError (Option (List Char)))
    (p : List Char) (s : ℚ)
    (hbest : bestMatch sim qv st.embeddings = some (p, s))
    (hnodoc : ∀ d ∈ st.documents, d.path ≠ p) :
    handle_query sim qv st question chat
      = .ok (mkToolResult st.crate_name missingContextText) := by
  have hfind : st.documents.find? (fun d => d.path == p) = none := by
    apply List.find?_eq_none.mpr
    intro d hd
    simp [hnodoc d hd]
  simp only [handle_query, hbest, hfind]

/-- Witness for `handle_query_missing_doc` at a concrete state. -/
theorem handle_query_missing_doc_witness :
    handle_query (fun _ _ => 0) [2]
        ⟨"tokio".toList, [], [("x".toList, [3])]⟩ ['q'] (fun _ _ => .ok none)
      = .ok (mkToolResult "tokio".toList missingContextText) :=
  handle_query_missing_doc (fun _ _ => 0) [2]
    ⟨"tokio".toList, [], [("x".toList, [3])]⟩ ['q'] (fun _ _ => .ok none)
    "x".toList 0 rfl (by simp)

end RustDocs
